import Mathlib

/-!
Verification of the domain-decomposition and collective-I/O core of
`lyncs_io` (files `lyncs_io/mpi_io.py` and `lyncs_io/numpy.py`).

The Python code is shallowly embedded: Python integers become `Int`
(`Nat` where the source value is known non-negative), Python lists
become `List Int`, and a `raise` becomes an `Except PyErr` error value.

A central point of the embedding is the expression `int(load / workers)`
in `Decomposition.__split_work` (mpi_io.py line 212).  In Python 3 the
operator `/` on two ints is *float* division: CPython computes the
correctly rounded IEEE-754 double of the exact rational quotient
(round to nearest, ties to even), raising `OverflowError` when the
quotient exceeds the double range, and `int(...)` then truncates toward
zero.  For quotients below `2 ^ 53` this agrees with floor division, but
not above.  `floorFloatDiv`, `truncFloatDiv` and `divOverflows` model
this exactly; the agreement with floor division below `2 ^ 53` is proved
in `floorFloatDiv_eq_div`.
-/

set_option exponentiation.threshold 1100

/-- Python exception classes raised by the embedded code. -/
inductive PyErr : Type where
  | valueError : PyErr
  | notImplementedError : PyErr
  | zeroDivisionError : PyErr
  | overflowError : PyErr
  | indexError : PyErr
deriving DecidableEq

instance {ε α : Type} [DecidableEq ε] [DecidableEq α] : DecidableEq (Except ε α) :=
  fun a b =>
    match a, b with
    | .ok x, .ok y => decidable_of_iff (x = y) (by simp)
    | .ok _, .error _ => isFalse fun h => Except.noConfusion h
    | .error _, .ok _ => isFalse fun h => Except.noConfusion h
    | .error e, .error f => decidable_of_iff (e = f) (by simp)

/-- Round the exact rational `num / den` to an integer, round half to even
(the IEEE-754 default rounding used by CPython's int/int true division). -/
def rne (num den : ℕ) : ℕ :=
  if den < 2 * (num % den) ∨ (2 * (num % den) = den ∧ (num / den) % 2 = 1)
  then num / den + 1 else num / den

/-- Fuel-driven base-2 logarithm (structural recursion so that the kernel
can evaluate it on large literals). -/
def lg2F : ℕ → ℕ → ℕ
  | 0, _ => 0
  | fuel + 1, n => if n ≤ 1 then 0 else lg2F fuel (n / 2) + 1

/-- `lg2 n` is `⌊log₂ n⌋` for `n ≥ 1`. -/
def lg2 (n : ℕ) : ℕ := lg2F n n

/-- `floorFloatDiv p q = int(p / q)` for non-negative Python ints `p`, `q`
with `q > 0`: the floor of the correctly rounded IEEE-754 double of the
exact rational `p / q` (53 significand bits, round half to even).
Exponent-range overflow is handled separately by `divOverflows`. -/
def floorFloatDiv (p q : ℕ) : ℕ :=
  if q = 0 then 0
  else if p < q then
    -- quotient < 1: the double rounds to 1.0 exactly when p/q ≥ 1 - 2⁻⁵⁴
    if (2 ^ 54 - 1) * q ≤ 2 ^ 54 * p then 1 else 0
  else if lg2 (p / q) ≤ 52 then
    rne (p * 2 ^ (52 - lg2 (p / q))) q / 2 ^ (52 - lg2 (p / q))
  else
    rne p (q * 2 ^ (lg2 (p / q) - 52)) * 2 ^ (lg2 (p / q) - 52)

/-- `truncFloatDiv a b = int(a / b)` for Python ints with `b ≠ 0`:
truncation toward zero of the correctly rounded double quotient. -/
def truncFloatDiv (a b : ℤ) : ℤ :=
  if (a < 0) = (b < 0) then (floorFloatDiv a.natAbs b.natAbs : ℤ)
  else -(floorFloatDiv a.natAbs b.natAbs : ℤ)

/-- CPython raises `OverflowError` on int/int true division when the
correctly rounded quotient would fall outside the double range, i.e. when
`|a| / |b| ≥ 2¹⁰²⁴ - 2⁹⁷⁰` (the midpoint above the largest double). -/
def divOverflows (a b : ℤ) : Bool :=
  decide ((2 ^ 1024 - 2 ^ 970) * b.natAbs ≤ a.natAbs)

namespace Decomposition

/-- `part` as computed at mpi_io.py line 212: `part = int(load / workers)`. -/
def part (load workers : ℤ) : ℤ := truncFloatDiv load workers

/-- `rem` as computed at mpi_io.py line 213: `rem = load - part * workers`. -/
def rem (load workers : ℤ) : ℤ := load - part load workers * workers

/-- Embedding of `Decomposition.__split_work` (mpi_io.py lines 183-224).
The `isinstance(..., int)` guards always pass here because the embedded
arguments are integers by type; a non-integer argument raises
`ValueError` in the source.  `int(load / workers)` is modelled by
`truncFloatDiv` (with its `ZeroDivisionError` and `OverflowError`
failure modes); the rest is literal: if `id >= workers - rem` the worker
uses `part + 1` shifted back by `workers - rem`, otherwise `part`. -/
def split_work (load workers wid : ℤ) : Except PyErr (ℤ × ℤ) :=
  if workers = 0 then .error .zeroDivisionError
  else if divOverflows load workers then .error .overflowError
  else if workers - rem load workers ≤ wid then
    .ok ((part load workers + 1) * wid - (workers - rem load workers),
         (part load workers + 1) * (1 + wid) - (workers - rem load workers))
  else
    .ok (part load workers * wid, part load workers * (1 + wid))

/-- Embedding of `Decomposition.decompose` (mpi_io.py lines 139-181) with
explicit `workers` and `id` (the `None` defaulting is `decompose_opt`). -/
def decompose (domain : List ℤ) (workers wid : ℤ) :
    Except PyErr (List ℤ × List ℤ × List ℤ) :=
  match domain with
  | [] => .error .indexError  -- size[0] on an empty domain
  | d0 :: _ =>
    if d0 < workers then .error .valueError
    else
      match split_work d0 workers wid with
      | .error e => .error e
      | .ok (low, hi) =>
        .ok (domain, domain.set 0 (hi - low), (List.replicate domain.length 0).set 0 low)

/-- Embedding of the defaulting at mpi_io.py lines 166-167: if either
`workers` or `id` is `None`, BOTH are replaced by the communicator's
size and the caller's rank. -/
def decompose_opt (commSize commRank : ℤ) (domain : List ℤ)
    (workers wid : Option ℤ) : Except PyErr (List ℤ × List ℤ × List ℤ) :=
  match workers, wid with
  | some w, some i => decompose domain w i
  | _, _ => decompose domain commSize commRank

/-- The local size `hi - low` a worker receives from `split_work`
(`subsize[0]` at mpi_io.py line 178); `0` if `split_work` raised. -/
def local_size (load workers : ℕ) (wid : ℕ) : ℤ :=
  match split_work load workers wid with
  | .ok (low, hi) => hi - low
  | .error _ => 0

end Decomposition

/-- The ideal lower bound of worker `wid`'s range for an exact integer
division: with `part = l / w`, `r = l % w` and `t = w - r`, worker `wid`
starts at `part * wid + (wid - t)` (truncated subtraction).  `split_work`
agrees with `fun wid => (idealLow l w wid, idealLow l w (wid+1))` whenever
`l < 2 ^ 53` (proved below). -/
def idealLow (l w : ℕ) (wid : ℕ) : ℕ :=
  (l / w) * wid + (wid - (w - l % w))

namespace Cartesian

/-- One pass of the loop in `Cartesian.decompose` (mpi_io.py lines 269-273):
for each `dim` in `range(len(dims))`, call the parent `decompose` on the
singleton domain `[domain[dim]]` with `workers = dims[dim]` and
`id = coords[dim]`, writing `subsizes[dim]` and `starts[dim]`.
List indexing out of range raises `IndexError` as in Python. -/
def go (coords domain : List ℤ) :
    List ℤ → ℕ → List ℤ → List ℤ → Except PyErr (List ℤ × List ℤ)
  | [], _, subs, starts => .ok (subs, starts)
  | w :: rest, k, subs, starts =>
    match domain.get? k with
    | none => .error .indexError
    | some d0 =>
      match coords.get? k with
      | none => .error .indexError
      | some c =>
        match Decomposition.decompose [d0] w c with
        | .error e => .error e
        | .ok (_, ssz, st) =>
          go coords domain rest (k + 1) (subs.set k (ssz.getD 0 0)) (starts.set k (st.getD 0 0))

/-- Embedding of `Cartesian.decompose` (mpi_io.py lines 242-275).  The
grid shape `dims` (`MPI.Compute_dims(size, ndims)`) and this process's
grid coordinates `coords` (`comm.Get_coords(rank)`) come from the MPI
runtime and are taken as parameters. -/
def decompose (dims coords domain : List ℤ) :
    Except PyErr (List ℤ × List ℤ × List ℤ) :=
  match go coords domain dims 0 domain (List.replicate domain.length 0) with
  | .error e => .error e
  | .ok (subs, starts) => .ok (domain, subs, starts)

end Cartesian

/-- Observable file-system effects of the collective I/O channel. -/
inductive MpiEvent : Type where
  | fileOpen : MpiEvent
  | setView : MpiEvent
  | readAll : MpiEvent
deriving DecidableEq

namespace MpiIo

/-- MPI file access mode constants as exposed by mpi4py.  The MPI standard
leaves the numeric values to the implementation; these are the values used
by both MPICH (ROMIO) and Open MPI, the implementations mpi4py wraps. -/
def MODE_RDONLY : ℕ := 2
/-- See `MODE_RDONLY`. -/
def MODE_RDWR : ℕ := 8
/-- See `MODE_RDONLY`. -/
def MODE_WRONLY : ℕ := 4
/-- See `MODE_RDONLY`. -/
def MODE_CREATE : ℕ := 1
/-- See `MODE_RDONLY`. -/
def MODE_EXCL : ℕ := 64
/-- See `MODE_RDONLY`. -/
def MODE_DELETE_ON_CLOSE : ℕ := 16
/-- See `MODE_RDONLY`. -/
def MODE_UNIQUE_OPEN : ℕ := 32
/-- See `MODE_RDONLY`. -/
def MODE_SEQUENTIAL : ℕ := 256
/-- See `MODE_RDONLY`. -/
def MODE_APPEND : ℕ := 128

/-- The keys of the `switcher` dictionary in `MpiIO.__check_file_mode`
(mpi_io.py lines 80-90), in source order. -/
def switcher_keys : List ℕ :=
  [ MODE_RDONLY, MODE_RDWR, MODE_WRONLY, MODE_CREATE, MODE_EXCL,
    MODE_DELETE_ON_CLOSE, MODE_UNIQUE_OPEN, MODE_SEQUENTIAL, MODE_APPEND]

/-- Embedding of `MpiIO.__check_file_mode` (mpi_io.py lines 76-95):
`switcher.get(mode) is None` raises `ValueError`, otherwise the mode is
returned unchanged. -/
def check_file_mode (mode : ℕ) : Except PyErr ℕ :=
  if switcher_keys.contains mode then .ok mode else .error .valueError

/-- Embedding of `MpiIO.file_open` (mpi_io.py lines 24-27): validate the
mode, then collectively open the file (the only file-system access). -/
def file_open (mode : ℕ) : List MpiEvent × Except PyErr ℕ :=
  match check_file_mode mode with
  | .error e => ([], .error e)
  | .ok amode => ([MpiEvent.fileOpen], .ok amode)

/-- ASCII model of Python `str.upper()` applied to the `order` argument. -/
def pyUpper (s : List Char) : List Char :=
  s.map fun c => if 'a' ≤ c ∧ c ≤ 'z' then Char.ofNat (c.toNat - 32) else c

/-- Embedding of `MpiIO.load` (mpi_io.py lines 29-65).  In source order:
if no handler is open yet, `file_open(MPI.MODE_RDONLY)` opens the file
(a file-system access); the domain is decomposed with the defaulted
`workers`/`id` (communicator size and rank); a non-numpy `dtype` raises
`NotImplementedError`; an order whose upper-case form is not `"C"`
raises `ValueError`; otherwise the subarray view is set and the
collective read fills a buffer of shape `subsizes`. -/
def load (handlerOpen : Bool) (commSize commRank : ℤ) (domain : List ℤ)
    (dtypeIsNumpy : Bool) (order : List Char) :
    List MpiEvent × Except PyErr (List ℤ) :=
  let ev0 : List MpiEvent := if handlerOpen then [] else [MpiEvent.fileOpen]
  match Decomposition.decompose_opt commSize commRank domain none none with
  | .error e => (ev0, .error e)
  | .ok (_, subsizes, _) =>
    if ¬ dtypeIsNumpy then (ev0, .error .notImplementedError)
    else if pyUpper order = ['C'] then
      (ev0 ++ [MpiEvent.setView, MpiEvent.readAll], .ok subsizes)
    else (ev0, .error .valueError)

/-- Embedding of `MpiIO.save` (mpi_io.py lines 67-68): the body is a
single `raise NotImplementedError`, so no effect is ever performed. -/
def save (_array : List ℤ) (_header : List Char) : List MpiEvent × Except PyErr Unit :=
  ([], .error .notImplementedError)

end MpiIo

/-- Extract the value of a successful `Except`, with a default. -/
def exceptD {α : Type} (e : Except PyErr α) (d : α) : α :=
  match e with
  | .ok a => a
  | .error _ => d

/-- The decomposition triple of grid worker `c` in a 2×2 Cartesian grid
over the domain `[8, 8]`. -/
def cart22 (c : Fin 2 × Fin 2) : List ℤ × List ℤ × List ℤ :=
  exceptD (Cartesian.decompose [2, 2] [(c.1 : ℤ), (c.2 : ℤ)] [8, 8]) ([], [], [])

/-- The partition contract of `Decomposition.__split_work` for a load `l`
over `w` workers: every worker gets a contiguous sub-range of `[0, l)`,
consecutive workers' ranges are adjacent, each point of `[0, l)` belongs
to exactly one worker, the local sizes sum to `l`, and any two local
sizes differ by at most 1. -/
def SplitPartitionSpec (l w : ℕ) : Prop :=
  (∀ i : ℕ, i < w → ∃ low hi : ℤ,
      Decomposition.split_work l w i = .ok (low, hi) ∧ 0 ≤ low ∧ low ≤ hi ∧ hi ≤ l) ∧
  (∀ i : ℕ, i + 1 < w → ∀ low hi low2 hi2 : ℤ,
      Decomposition.split_work l w i = .ok (low, hi) →
      Decomposition.split_work l w (i + 1) = .ok (low2, hi2) → hi = low2) ∧
  (∀ x : ℤ, 0 ≤ x → x < l → ∃! i : ℕ, i < w ∧ ∃ low hi : ℤ,
      Decomposition.split_work l w i = .ok (low, hi) ∧ low ≤ x ∧ x < hi) ∧
  Finset.sum (Finset.range w) (Decomposition.local_size l w) = (l : ℤ) ∧
  (∀ i j : ℕ, i < w → j < w →
      (Decomposition.local_size l w i - Decomposition.local_size l w j).natAbs ≤ 1)

/-! ### Arithmetic lemmas about the float-division model -/

theorem lg2F_spec : ∀ fuel n : ℕ, 0 < n → n ≤ fuel →
    2 ^ lg2F fuel n ≤ n ∧ n < 2 ^ (lg2F fuel n + 1) := by
  intro fuel
  induction fuel with
  | zero => intro n h1 h2; exact absurd h1 (by omega)
  | succ f ih =>
    intro n h1 h2
    by_cases hn : n ≤ 1
    · have hn1 : n = 1 := by omega
      subst hn1
      simp [lg2F]
    · have hrec : lg2F (f + 1) n = lg2F f (n / 2) + 1 := by
        simp [lg2F, hn]
      have h1' : 0 < n / 2 := by omega
      have h2' : n / 2 ≤ f := by omega
      obtain ⟨ha, hb⟩ := ih (n / 2) h1' h2'
      rw [hrec]
      constructor
      · rw [pow_succ]
        calc 2 ^ lg2F f (n / 2) * 2 ≤ (n / 2) * 2 := by
              exact mul_le_mul_right' ha 2
          _ ≤ n := by omega
      · rw [pow_succ]
        calc n < (n / 2 + 1) * 2 := by omega
          _ ≤ 2 ^ (lg2F f (n / 2) + 1) * 2 := by
              exact mul_le_mul_right' hb 2

theorem lg2_spec (n : ℕ) (h : 0 < n) : 2 ^ lg2 n ≤ n ∧ n < 2 ^ (lg2 n + 1) :=
  lg2F_spec n n h le_rfl

/-- Below `2 ^ 53`, `int(p / q)` (float division then truncation) agrees
with exact floor division.  This is the exactness range of the slip in
`Decomposition.__split_work`. -/
theorem floorFloatDiv_eq_div (p q : ℕ) (hq : 0 < q) (hp : p < 2 ^ 53) :
    floorFloatDiv p q = p / q := by
  rw [floorFloatDiv, if_neg (by omega : ¬ q = 0)]
  by_cases hpq : p < q
  · rw [if_pos hpq, Nat.div_eq_of_lt hpq, if_neg]
    have e53 : (2 : ℕ) ^ 53 = 9007199254740992 := by norm_num
    have e54 : (2 : ℕ) ^ 54 = 18014398509481984 := by norm_num
    rw [e54]
    rw [e53] at hp
    omega
  · push_neg at hpq
    rw [if_neg (Nat.not_lt.mpr hpq)]
    have hn1 : 1 ≤ p / q := (Nat.one_le_div_iff hq).mpr hpq
    obtain ⟨helow, hehigh⟩ := lg2_spec (p / q) hn1
    have he52 : lg2 (p / q) ≤ 52 := by
      by_contra hgt
      push_neg at hgt
      have h2e : (2 : ℕ) ^ 53 ≤ 2 ^ lg2 (p / q) := Nat.pow_le_pow_right (by norm_num) hgt
      exact absurd (le_trans (le_trans h2e helow) (Nat.div_le_self p q)) (Nat.not_le.mpr hp)
    rw [if_pos he52]
    rw [rne]
    set n := p / q with hn
    set e := lg2 n with he
    set S := 2 ^ (52 - e) with hS
    have hS1 : 0 < S := pow_pos (by norm_num) _
    set f := p % q with hf
    have hpf : q * n + f = p := by rw [hn, hf]; exact Nat.div_add_mod p q
    have hfq : f < q := by rw [hf]; exact Nat.mod_lt p hq
    have hsplit : p * S = q * (n * S) + f * S := by rw [← hpf]; ring
    have hdiv : p * S / q = n * S + f * S / q := by
      rw [hsplit, Nat.mul_add_div hq]
    have hmod : p * S % q = f * S % q := by
      rw [hsplit, Nat.mul_add_mod]
    have hfSq : f * S / q < S := by
      rw [Nat.div_lt_iff_lt_mul hq]
      exact lt_of_lt_of_le (mul_lt_mul_of_pos_right hfq hS1) (le_of_eq (mul_comm q S))
    have hq2S : q < 2 * S := by
      have h1 : q * 2 ^ e ≤ q * n := Nat.mul_le_mul_left q helow
      have h2 : q * n ≤ p := Nat.le.intro hpf
      have h3 : (2 : ℕ) ^ 53 = 2 ^ e * (2 * S) := by
        rw [hS]
        calc (2 : ℕ) ^ 53 = 2 ^ (e + (52 - e + 1)) := by congr 1; omega
          _ = 2 ^ e * 2 ^ (52 - e + 1) := pow_add 2 e _
          _ = 2 ^ e * (2 * 2 ^ (52 - e)) := by rw [pow_succ']
      have h4 : 2 ^ e * q < 2 ^ e * (2 * S) := by
        rw [mul_comm]
        exact lt_of_le_of_lt (le_trans h1 h2) (h3 ▸ hp)
      exact lt_of_mul_lt_mul_left h4 (Nat.zero_le _)
    rw [hdiv, hmod]
    set D := f * S / q with hD
    set R := f * S % q with hR
    -- if D reaches its maximum S - 1 the rounding cannot go up, since the
    -- true quotient is then more than half an ulp below the next integer
    have hkey : D = S - 1 → ¬ (q < 2 * R ∨ (2 * R = q ∧ (n * S + D) % 2 = 1)) := by
      intro hDS hcond
      have hRdecomp : q * D + R = f * S := by rw [hD, hR]; exact Nat.div_add_mod (f * S) q
      have hfS_le : f * S ≤ (q - 1) * S := mul_le_mul_right' (by omega) S
      have hq2R : q ≤ 2 * R := by rcases hcond with h | ⟨h, _⟩ <;> omega
      rw [hDS] at hRdecomp
      have hqpred : q * (S - 1) = q * S - q := by
        have : S - 1 = Nat.pred S := rfl
        rw [this, Nat.mul_pred]
      rw [hqpred] at hRdecomp
      have hsubm : (q - 1) * S = q * S - S := by rw [Nat.sub_mul, one_mul]
      rw [hsubm] at hfS_le
      have hqle : q ≤ q * S := Nat.le_mul_of_pos_right q hS1
      have hSle : S ≤ q * S := Nat.le_mul_of_pos_left S hq
      set A := q * S with hA
      set B := f * S with hB
      omega
    by_cases hc : q < 2 * R ∨ (2 * R = q ∧ (n * S + D) % 2 = 1)
    · rw [if_pos hc]
      rcases Nat.lt_or_ge D (S - 1) with hDlt | hDge
      · refine Nat.div_eq_of_lt_le ?_ ?_
        · rw [add_assoc]
          exact Nat.le_add_right _ _
        · rw [Nat.succ_mul, add_assoc]
          exact Nat.add_lt_add_left (by omega) _
      · have hDeq : D = S - 1 := by omega
        exact absurd hc (hkey hDeq)
    · rw [if_neg hc]
      refine Nat.div_eq_of_lt_le (Nat.le_add_right _ _) ?_
      rw [Nat.succ_mul]
      exact Nat.add_lt_add_left hfSq _

theorem truncFloatDiv_coe (l w : ℕ) (hw : 0 < w) (hl : l < 2 ^ 53) :
    truncFloatDiv (l : ℤ) (w : ℤ) = ((l / w : ℕ) : ℤ) := by
  rw [truncFloatDiv, if_pos]
  · rw [Int.natAbs_ofNat, Int.natAbs_ofNat, floorFloatDiv_eq_div l w hw hl]
  · rw [eq_iff_iff]
    exact iff_of_false (not_lt.mpr (Int.natCast_nonneg l)) (not_lt.mpr (Int.natCast_nonneg w))

theorem divOverflows_coe_false (l w : ℕ) (hw : 0 < w) (hl : l < 2 ^ 53) :
    divOverflows (l : ℤ) (w : ℤ) = false := by
  rw [divOverflows]
  simp only [Int.natAbs_ofNat, decide_eq_false_iff_not]
  intro hcon
  have h1 : 2 ^ 1024 - 2 ^ 970 ≤ (2 ^ 1024 - 2 ^ 970) * w := Nat.le_mul_of_pos_right _ hw
  have key : (2 : ℕ) ^ 53 ≤ 2 ^ 1024 - 2 ^ 970 := by norm_num
  exact absurd (lt_of_le_of_lt (le_trans h1 hcon) (lt_of_lt_of_le hl key)) (lt_irrefl _)

/-- For loads below `2 ^ 53` the code's `__split_work` returns exactly the
ideal ranges `[idealLow wid, idealLow (wid+1))` of the exact integer
division, for every worker index. -/
theorem split_work_eq_idealLow (l w wid : ℕ) (hw : 0 < w) (hl : l < 2 ^ 53) :
    Decomposition.split_work (l : ℤ) (w : ℤ) (wid : ℤ) =
      .ok ((idealLow l w wid : ℤ), (idealLow l w (wid + 1) : ℤ)) := by
  have hmod : l % w < w := Nat.mod_lt l hw
  have hdm : w * (l / w) + l % w = l := Nat.div_add_mod l w
  rw [Decomposition.split_work, Decomposition.rem, Decomposition.part]
  rw [if_neg (by exact_mod_cast hw.ne' : ¬ (w : ℤ) = 0)]
  rw [divOverflows_coe_false l w hw hl]
  rw [if_neg (by simp)]
  rw [truncFloatDiv_coe l w hw hl]
  have hrem : (l : ℤ) - ((l / w : ℕ) : ℤ) * (w : ℤ) = ((l % w : ℕ) : ℤ) := by
    have hcast : ((w : ℤ)) * ((l / w : ℕ) : ℤ) + ((l % w : ℕ) : ℤ) = (l : ℤ) := by
      exact_mod_cast hdm
    linarith [hcast]
  rw [hrem]
  have hsub : ((w : ℤ)) - ((l % w : ℕ) : ℤ) = ((w - l % w : ℕ) : ℤ) := by
    push_cast [Nat.cast_sub (le_of_lt hmod)]
    ring
  rw [hsub]
  by_cases hbr : (w - l % w : ℕ) ≤ wid
  · rw [if_pos (by exact_mod_cast hbr)]
    have hbr1 : (w - l % w : ℕ) ≤ wid + 1 := le_trans hbr (Nat.le_succ wid)
    simp only [idealLow, Except.ok.injEq, Prod.mk.injEq]
    push_cast [Nat.cast_sub hbr, Nat.cast_sub hbr1]
    exact ⟨by ring, by ring⟩
  · rw [if_neg (by exact_mod_cast hbr)]
    push_neg at hbr
    simp only [idealLow, Except.ok.injEq, Prod.mk.injEq]
    rw [Nat.sub_eq_zero_of_le (le_of_lt hbr), Nat.sub_eq_zero_of_le hbr]
    push_cast
    exact ⟨by ring, by ring⟩

/-- `idealLow` is monotone in the worker index. -/
theorem idealLow_le_succ (l w wid : ℕ) : idealLow l w wid ≤ idealLow l w (wid + 1) := by
  rw [idealLow, idealLow]
  have h1 : (l / w) * wid ≤ (l / w) * (wid + 1) := Nat.mul_le_mul_left _ (Nat.le_succ wid)
  have h2 : wid - (w - l % w) ≤ wid + 1 - (w - l % w) := by omega
  omega

theorem idealLow_mono (l w : ℕ) : Monotone (idealLow l w) :=
  monotone_nat_of_le_succ (idealLow_le_succ l w)

/-- With at least one unit per worker, `idealLow` is strictly increasing. -/
theorem idealLow_succ_lt (l w wid : ℕ) (hw : 0 < w) (hwl : w ≤ l) :
    idealLow l w wid < idealLow l w (wid + 1) := by
  have hpart : 1 ≤ l / w := (Nat.one_le_div_iff hw).mpr hwl
  rw [idealLow, idealLow]
  have h1 : (l / w) * (wid + 1) = (l / w) * wid + l / w := by ring
  have h2 : wid - (w - l % w) ≤ wid + 1 - (w - l % w) := by omega
  omega

theorem idealLow_zero (l w : ℕ) : idealLow l w 0 = 0 := by
  rw [idealLow]
  omega

theorem idealLow_top (l w : ℕ) (hw : 0 < w) : idealLow l w w = l := by
  have hmod : l % w < w := Nat.mod_lt l hw
  have hdm : w * (l / w) + l % w = l := Nat.div_add_mod l w
  rw [idealLow]
  have hsub : w - (w - l % w) = l % w := by omega
  rw [hsub]
  have hmul : (l / w) * w = w * (l / w) := mul_comm _ _
  omega

/-- A monotone integer-valued boundary sequence splits `[g 0, g w)` into
intervals `[g i, g (i+1))`, and each point lies in exactly one of them. -/
theorem boundary_cover_unique (g : ℕ → ℤ) (mono : ∀ i j : ℕ, i ≤ j → g i ≤ g j)
    (w : ℕ) (x : ℤ) (hx0 : g 0 ≤ x) (hxw : x < g w) :
    ∃! i : ℕ, i < w ∧ g i ≤ x ∧ x < g (i + 1) := by
  have hex : ∀ m : ℕ, g 0 ≤ x → x < g m → ∃ i : ℕ, i < m ∧ g i ≤ x ∧ x < g (i + 1) := by
    intro m
    induction m with
    | zero => intro h0 hm; exact absurd (lt_of_le_of_lt h0 hm) (lt_irrefl (g 0))
    | succ k ih =>
      intro h0 hm
      by_cases hk : g k ≤ x
      · exact ⟨k, Nat.lt_succ_self k, hk, hm⟩
      · push_neg at hk
        obtain ⟨i, hi, h1, h2⟩ := ih h0 hk
        exact ⟨i, Nat.lt_succ_of_lt hi, h1, h2⟩
  obtain ⟨i, hi, h1, h2⟩ := hex w hx0 hxw
  refine ⟨i, ⟨hi, h1, h2⟩, ?_⟩
  rintro j ⟨hj, hj1, hj2⟩
  by_contra hne
  rcases Nat.lt_or_ge j i with hlt | hge
  · exact absurd (lt_of_lt_of_le hj2 (le_trans (mono _ _ (by omega : j + 1 ≤ i)) h1))
      (lt_irrefl x)
  · exact absurd (lt_of_lt_of_le h2 (le_trans (mono _ _ (by omega : i + 1 ≤ j)) hj1))
      (lt_irrefl x)

theorem idealLow_size_bounds (l w k : ℕ) :
    idealLow l w k + l / w ≤ idealLow l w (k + 1) ∧
    idealLow l w (k + 1) ≤ idealLow l w k + l / w + 1 := by
  rw [idealLow, idealLow]
  have e : (l / w) * (k + 1) = (l / w) * k + l / w := by ring
  omega

theorem local_size_eq (l w : ℕ) (hw : 0 < w) (hl : l < 2 ^ 53) (k : ℕ) :
    Decomposition.local_size l w k =
      ((idealLow l w (k + 1) : ℕ) : ℤ) - ((idealLow l w k : ℕ) : ℤ) := by
  rw [Decomposition.local_size]
  rw [split_work_eq_idealLow l w k hw hl]

theorem local_size_bounds (l w : ℕ) (hw : 0 < w) (hl : l < 2 ^ 53) (k : ℕ) :
    ((l / w : ℕ) : ℤ) ≤ Decomposition.local_size l w k ∧
    Decomposition.local_size l w k ≤ ((l / w : ℕ) : ℤ) + 1 := by
  rw [local_size_eq l w hw hl k]
  obtain ⟨h1, h2⟩ := idealLow_size_bounds l w k
  omega

/-! ### Claim C1 -/

/-- C1 (counterexample): the claim fails as stated.  At
`load = 2 ^ 53 + 3`, `workers = 1`, `id = 0` — integers satisfying
`load ≥ workers > 0` and `id ∈ [0, workers)` — `__split_work` returns the
range `[0, 2 ^ 53 + 4)`, which is NOT a sub-range of `[0, load)` and whose
total size exceeds `load`: `int(load / workers)` is float division, and
the correctly rounded double of `2 ^ 53 + 3` is `2 ^ 53 + 4` (ties to
even), making `rem = -1` so no worker receives the `part + 1` correction. -/
theorem split_work_overshoots_load_at_2pow53plus3 :
    Decomposition.split_work (2 ^ 53 + 3 : ℤ) 1 0 = .ok (0, 2 ^ 53 + 4) ∧
    ¬ ((2 ^ 53 + 4 : ℤ) ≤ 2 ^ 53 + 3) := by
  constructor
  · decide
  · decide

/-- C1 (amended): for every `load` and `workers` with
`2 ^ 53 > load ≥ workers > 0` (the range on which `int(load / workers)`
is exact) and every `id` in `[0, workers)`, `__split_work` returns a
contiguous half-open sub-range of `[0, load)`; the ranges are adjacent
(gap-free), every point of `[0, load)` belongs to exactly one worker, the
sizes sum to `load`, and any two sizes differ by at most 1. -/
theorem split_work_partition_below_2pow53 (l w : ℕ) (hw : 0 < w) (_hwl : w ≤ l)
    (hl : l < 2 ^ 53) : SplitPartitionSpec l w := by
  have hsw : ∀ i : ℕ, Decomposition.split_work (l : ℤ) (w : ℤ) (i : ℤ) =
      .ok ((idealLow l w i : ℤ), (idealLow l w (i + 1) : ℤ)) :=
    fun i => split_work_eq_idealLow l w i hw hl
  have hmono : ∀ i j : ℕ, i ≤ j → ((idealLow l w i : ℕ) : ℤ) ≤ ((idealLow l w j : ℕ) : ℤ) :=
    fun i j h => by exact_mod_cast idealLow_mono l w h
  refine ⟨?_, ?_, ?_, ?_, ?_⟩
  · -- each worker's range is inside [0, load)
    intro i hi
    refine ⟨_, _, hsw i, ?_, ?_, ?_⟩
    · exact Int.natCast_nonneg _
    · exact hmono i (i + 1) (Nat.le_succ i)
    · calc ((idealLow l w (i + 1) : ℕ) : ℤ) ≤ ((idealLow l w w : ℕ) : ℤ) :=
            hmono (i + 1) w (by omega)
        _ = (l : ℤ) := by rw [idealLow_top l w hw]
  · -- consecutive ranges are adjacent
    intro i hi lowa hia lowb hib h1 h2
    have h2' : Decomposition.split_work (l : ℤ) (w : ℤ) ((i + 1 : ℕ) : ℤ) =
        .ok (lowb, hib) := by exact_mod_cast h2
    rw [hsw i] at h1
    rw [hsw (i + 1)] at h2'
    simp only [Except.ok.injEq, Prod.mk.injEq] at h1 h2'
    rw [← h1.2, ← h2'.1]
  · -- each point of [0, load) belongs to exactly one worker
    intro x hx0 hxl
    have base := boundary_cover_unique (fun i => ((idealLow l w i : ℕ) : ℤ))
      (fun i j h => hmono i j h) w x
      (by show ((idealLow l w 0 : ℕ) : ℤ) ≤ x; rw [idealLow_zero]; exact_mod_cast hx0)
      (by show x < ((idealLow l w w : ℕ) : ℤ); rw [idealLow_top l w hw]; exact hxl)
    have hiff : ∀ i : ℕ,
        (i < w ∧ ∃ lowa hia : ℤ, Decomposition.split_work (l : ℤ) (w : ℤ) (i : ℤ) =
            .ok (lowa, hia) ∧ lowa ≤ x ∧ x < hia) ↔
        (i < w ∧ ((idealLow l w i : ℕ) : ℤ) ≤ x ∧ x < ((idealLow l w (i + 1) : ℕ) : ℤ)) := by
      intro i
      constructor
      · rintro ⟨hi, lowa, hia, hok, hh1, hh2⟩
        rw [hsw i] at hok
        simp only [Except.ok.injEq, Prod.mk.injEq] at hok
        exact ⟨hi, hok.1 ▸ hh1, hok.2 ▸ hh2⟩
      · rintro ⟨hi, hh1, hh2⟩
        exact ⟨hi, _, _, hsw i, hh1, hh2⟩
    exact (existsUnique_congr hiff).mpr base
  · -- the sizes sum to load
    have hcong : Finset.sum (Finset.range w) (Decomposition.local_size l w) =
        Finset.sum (Finset.range w)
          (fun i => ((idealLow l w (i + 1) : ℕ) : ℤ) - ((idealLow l w i : ℕ) : ℤ)) :=
      Finset.sum_congr rfl (fun i _ => local_size_eq l w hw hl i)
    rw [hcong, Finset.sum_range_sub (fun i => ((idealLow l w i : ℕ) : ℤ))]
    rw [idealLow_zero, idealLow_top l w hw]
    simp
  · -- any two sizes differ by at most one
    intro i j hi hj
    obtain ⟨ha1, ha2⟩ := local_size_bounds l w hw hl i
    obtain ⟨hb1, hb2⟩ := local_size_bounds l w hw hl j
    omega

/-- C1 (witness): the amended theorem applied to `load = 7`, `workers = 3`. -/
theorem split_work_partition_below_2pow53_witness :
    0 < 3 ∧ 3 ≤ 7 ∧ 7 < 2 ^ 53 ∧ SplitPartitionSpec 7 3 :=
  ⟨by decide, by decide, by norm_num, split_work_partition_below_2pow53 7 3
    (by decide) (by decide) (by norm_num)⟩

/-! ### Claim C2 -/

/-- Whenever `__split_work` returns (no exception), the worker's size is
the code's `part + 1` exactly on the branch `id ≥ workers - rem`, and
`part` otherwise — for every input, including those where float division
distorts `part` and `rem`. -/
theorem split_work_size (load workers wid lowa hia : ℤ)
    (h : Decomposition.split_work load workers wid = .ok (lowa, hia)) :
    hia - lowa = if workers - Decomposition.rem load workers ≤ wid
                 then Decomposition.part load workers + 1
                 else Decomposition.part load workers := by
  rw [Decomposition.split_work] at h
  by_cases h0 : workers = 0
  · rw [if_pos h0] at h; exact Except.noConfusion h
  · rw [if_neg h0] at h
    by_cases hov : divOverflows load workers = true
    · rw [if_pos hov] at h; exact Except.noConfusion h
    · rw [if_neg hov] at h
      by_cases hbr : workers - Decomposition.rem load workers ≤ wid
      · rw [if_pos hbr] at h
        simp only [Except.ok.injEq, Prod.mk.injEq] at h
        rw [if_pos hbr, ← h.1, ← h.2]; ring
      · rw [if_neg hbr] at h
        simp only [Except.ok.injEq, Prod.mk.injEq] at h
        rw [if_neg hbr, ← h.1, ← h.2]; ring

/-- C2: the remainder is assigned in reverse round-robin.  With the code's
`part = int(load / workers)` and `rem = load - part * workers`, a worker
receives `part + 1` units exactly when `id ≥ workers - rem` (the last
workers) and `part` otherwise, so shares never decrease as `id` grows;
and `decompose([7,4], workers=3)` yields local sizes 2, 2, 3 for ids
0, 1, 2, with id 2 receiving the extra unit. -/
theorem split_work_reverse_round_robin :
    (∀ load workers wid lowa hia : ℤ,
        Decomposition.split_work load workers wid = .ok (lowa, hia) →
        hia - lowa = if workers - Decomposition.rem load workers ≤ wid
                     then Decomposition.part load workers + 1
                     else Decomposition.part load workers) ∧
    (∀ load workers i j lowi hii lowj hij : ℤ, i ≤ j →
        Decomposition.split_work load workers i = .ok (lowi, hii) →
        Decomposition.split_work load workers j = .ok (lowj, hij) →
        hii - lowi ≤ hij - lowj) ∧
    (Decomposition.decompose [7, 4] 3 0 = .ok ([7, 4], [2, 4], [0, 0]) ∧
     Decomposition.decompose [7, 4] 3 1 = .ok ([7, 4], [2, 4], [2, 0]) ∧
     Decomposition.decompose [7, 4] 3 2 = .ok ([7, 4], [3, 4], [4, 0])) := by
  refine ⟨fun load workers wid lowa hia h => split_work_size load workers wid lowa hia h,
    ?_, by decide, by decide, by decide⟩
  intro load workers i j lowi hii lowj hij hij2 h1 h2
  rw [split_work_size load workers i lowi hii h1, split_work_size load workers j lowj hij h2]
  split_ifs <;> omega

/-- C2 (witness): the size rule and monotonicity at `load = 7`,
`workers = 3` (ids 0 and 2, ranges `[0,2)` and `[4,7)`). -/
theorem split_work_reverse_round_robin_witness :
    ((7 : ℤ) - 4 = if (3 : ℤ) - Decomposition.rem 7 3 ≤ 2
                   then Decomposition.part 7 3 + 1 else Decomposition.part 7 3) ∧
    ((2 : ℤ) - 0 ≤ 7 - 4) :=
  ⟨split_work_reverse_round_robin.1 7 3 2 4 7 (by decide),
   split_work_reverse_round_robin.2.1 7 3 0 2 0 2 4 7 (by decide) (by decide) (by decide)⟩

/-! ### Claim C3 -/

/-- `__split_work` itself never raises `ValueError` on integer inputs:
its only failure modes are `ZeroDivisionError` and `OverflowError`. -/
theorem split_work_ne_valueError (load workers wid : ℤ) :
    Decomposition.split_work load workers wid ≠ .error .valueError := by
  rw [Decomposition.split_work]
  split_ifs <;> simp

/-- C3 (counterexample): the claim fails as stated: `id = 5` is outside
`[0, workers) = [0, 3)`, yet `decompose([7], workers=3, id=5)` does not
fail — no range check on `id` exists in the code — and silently returns
the out-of-bounds range `[13, 16)` of size 3. -/
theorem decompose_accepts_out_of_range_id :
    Decomposition.decompose [7] 3 5 = .ok ([7], [3], [13]) ∧ ¬ ((5 : ℤ) < 3) :=
  ⟨by decide, by decide⟩

/-- C3 (amended): on integer arguments the partitioning path fails with
`ValueError` (invalid-argument) exactly when `load < workers`; `id` is
never validated (out-of-range ids are accepted, see the counterexample),
and non-integer `load`/`workers`/`id` — not representable in this integer
embedding — are rejected by the `isinstance` guards in the source. -/
theorem decompose_valueError_iff_load_lt_workers (d0 : ℤ) (rest : List ℤ)
    (workers wid : ℤ) :
    Decomposition.decompose (d0 :: rest) workers wid = .error .valueError ↔
      d0 < workers := by
  rw [Decomposition.decompose]
  by_cases h : d0 < workers
  · rw [if_pos h]
    simp [h]
  · rw [if_neg h]
    refine iff_of_false ?_ h
    intro hc
    split at hc
    · rename_i e heq
      have hinj : e = PyErr.valueError := by injection hc
      have hne := split_work_ne_valueError d0 workers wid
      rw [heq, hinj] at hne
      exact hne rfl
    · exact Except.noConfusion hc

/-! ### Claim C4 -/

theorem getD_replicate_zero : ∀ n k : ℕ, (List.replicate n (0 : ℤ)).getD k 0 = 0 := by
  intro n
  induction n with
  | zero => intro k; simp [List.replicate]
  | succ m ih =>
    intro k
    cases k with
    | zero => simp [List.replicate]
    | succ k2 => simp [List.replicate, ih k2]

/-- C4: `decompose` splits only axis 0: whenever it succeeds the returned
`sizes` equal the domain, `subsizes` and `starts` have the domain's rank,
and every axis `k ≥ 1` passes through unchanged (`subsize = size`,
`start = 0`); concretely, `decompose([8,4,4], workers=4, id=2)` yields
`sizes=[8,4,4]`, `subsizes=[2,4,4]`, `starts=[4,0,0]`. -/
theorem decompose_splits_only_axis_zero :
    (∀ (domain : List ℤ) (workers wid : ℤ) (s ss st : List ℤ),
        Decomposition.decompose domain workers wid = .ok (s, ss, st) →
        s = domain ∧ ss.length = domain.length ∧ st.length = domain.length ∧
        ∀ k : ℕ, 1 ≤ k → k < domain.length →
          ss.getD k 0 = domain.getD k 0 ∧ st.getD k 0 = 0) ∧
    Decomposition.decompose [8, 4, 4] 4 2 = .ok ([8, 4, 4], [2, 4, 4], [4, 0, 0]) := by
  constructor
  · intro domain workers wid s ss st h
    cases domain with
    | nil =>
      rw [Decomposition.decompose] at h
      exact Except.noConfusion h
    | cons d0 rest =>
      rw [Decomposition.decompose] at h
      by_cases hlt : d0 < workers
      · rw [if_pos hlt] at h
        exact Except.noConfusion h
      · rw [if_neg hlt] at h
        cases hsw : Decomposition.split_work d0 workers wid with
        | error e =>
          rw [hsw] at h
          exact Except.noConfusion h
        | ok p =>
          obtain ⟨lo, hi2⟩ := p
          rw [hsw] at h
          simp only [Except.ok.injEq, Prod.mk.injEq] at h
          obtain ⟨h1, h2, h3⟩ := h
          refine ⟨h1.symm, ?_, ?_, ?_⟩
          · rw [← h2]
            simp
          · rw [← h3]
            simp
          · intro k hk1 hk2
            rw [← h2, ← h3]
            cases k with
            | zero => exact absurd hk1 (by omega)
            | succ m =>
              constructor
              · simp
              · show ((List.replicate (d0 :: rest).length (0 : ℤ)).set 0 lo).getD (m + 1) 0 = 0
                simp only [List.length_cons, List.replicate_succ, List.set_cons_zero,
                  List.getD_cons_succ]
                exact getD_replicate_zero rest.length m
  · decide

/-- C4 (witness): the pass-through statement applied to the concrete
decomposition `decompose([8,4,4], workers=4, id=2)`. -/
theorem decompose_splits_only_axis_zero_witness :
    ([8, 4, 4] : List ℤ) = [8, 4, 4] ∧
    ([2, 4, 4] : List ℤ).length = ([8, 4, 4] : List ℤ).length ∧
    ([4, 0, 0] : List ℤ).length = ([8, 4, 4] : List ℤ).length ∧
    (∀ k : ℕ, 1 ≤ k → k < ([8, 4, 4] : List ℤ).length →
      ([2, 4, 4] : List ℤ).getD k 0 = ([8, 4, 4] : List ℤ).getD k 0 ∧
      ([4, 0, 0] : List ℤ).getD k 0 = 0) :=
  decompose_splits_only_axis_zero.1 [8, 4, 4] 4 2 [8, 4, 4] [2, 4, 4] [4, 0, 0] (by decide)

/-! ### Claim C5 -/

theorem getD_set_self (l : List ℤ) (k : ℕ) (v : ℤ) (h : k < l.length) :
    (l.set k v).getD k 0 = v := by
  induction l generalizing k with
  | nil => simp at h
  | cons a t ih =>
    cases k with
    | zero => simp
    | succ m =>
      simp only [List.set, List.getD_cons_succ]
      exact ih m (by simpa using h)

theorem getD_set_ne (l : List ℤ) (k j : ℕ) (v : ℤ) (h : j ≠ k) :
    (l.set k v).getD j 0 = l.getD j 0 := by
  induction l generalizing k j with
  | nil => simp
  | cons a t ih =>
    cases k with
    | zero =>
      cases j with
      | zero => exact absurd rfl h
      | succ n => simp [List.set]
    | succ m =>
      cases j with
      | zero => simp [List.set]
      | succ n =>
        simp only [List.set, List.getD_cons_succ]
        exact ih m n (by omega)

theorem getD_of_get?_some (l : List ℤ) (k : ℕ) (v : ℤ) (h : l.get? k = some v) :
    l.getD k 0 = v := by
  induction l generalizing k with
  | nil => simp at h
  | cons a t ih =>
    cases k with
    | zero => simp at h; simpa using h
    | succ m =>
      simp only [List.get?] at h
      simp only [List.getD_cons_succ]
      exact ih m h

theorem lt_length_of_get?_some (l : List ℤ) (k : ℕ) (v : ℤ) (h : l.get? k = some v) :
    k < l.length := by
  induction l generalizing k with
  | nil => simp at h
  | cons a t ih =>
    cases k with
    | zero => simp
    | succ m =>
      simp only [List.get?] at h
      simpa using ih m h

/-- A successful `decompose` on a singleton domain returns singletons:
the global size, a local size `hi - low`, and the local start `low`. -/
theorem decompose_singleton_shape (d0 w c : ℤ) (s ss st : List ℤ)
    (h : Decomposition.decompose [d0] w c = .ok (s, ss, st)) :
    ∃ lo hi : ℤ, Decomposition.split_work d0 w c = .ok (lo, hi) ∧
      s = [d0] ∧ ss = [hi - lo] ∧ st = [lo] := by
  rw [Decomposition.decompose] at h
  by_cases hlt : d0 < w
  · rw [if_pos hlt] at h
    exact Except.noConfusion h
  · rw [if_neg hlt] at h
    cases hsw : Decomposition.split_work d0 w c with
    | error e =>
      rw [hsw] at h
      exact Except.noConfusion h
    | ok p =>
      obtain ⟨lo, hi2⟩ := p
      rw [hsw] at h
      simp only [Except.ok.injEq, Prod.mk.injEq] at h
      obtain ⟨h1, h2, h3⟩ := h
      exact ⟨lo, hi2, rfl, h1.symm, by simpa using h2.symm, by simpa using h3.symm⟩

/-- Invariant of the `Cartesian.decompose` loop: positions outside the
still-to-be-processed window keep their current values, and every
processed grid axis `k + i` holds exactly the singleton decomposition of
`domain[k+i]` over `dims[i]` workers at grid coordinate `coords[k+i]`. -/
theorem cart_go_spec :
    ∀ (dimsRest coords domain : List ℤ) (k : ℕ) (subs starts fsubs fstarts : List ℤ),
      subs.length = domain.length → starts.length = domain.length →
      Cartesian.go coords domain dimsRest k subs starts = .ok (fsubs, fstarts) →
      fsubs.length = domain.length ∧ fstarts.length = domain.length ∧
      (∀ j : ℕ, j < k ∨ k + dimsRest.length ≤ j →
        fsubs.getD j 0 = subs.getD j 0 ∧ fstarts.getD j 0 = starts.getD j 0) ∧
      (∀ i : ℕ, i < dimsRest.length →
        Decomposition.decompose [domain.getD (k + i) 0] (dimsRest.getD i 0)
            (coords.getD (k + i) 0) =
          .ok ([domain.getD (k + i) 0], [fsubs.getD (k + i) 0], [fstarts.getD (k + i) 0])) := by
  intro dimsRest
  induction dimsRest with
  | nil =>
    intro coords domain k subs starts fsubs fstarts hsl hstl h
    rw [Cartesian.go] at h
    simp only [Except.ok.injEq, Prod.mk.injEq] at h
    obtain ⟨h1, h2⟩ := h
    subst h1; subst h2
    exact ⟨hsl, hstl, fun j _ => ⟨rfl, rfl⟩, fun i hi => absurd hi (by simp)⟩
  | cons w rest ih =>
    intro coords domain k subs starts fsubs fstarts hsl hstl h
    rw [Cartesian.go] at h
    split at h
    · exact Except.noConfusion h
    · rename_i d0 hd
      split at h
      · exact Except.noConfusion h
      · rename_i c hcq
        split at h
        · exact Except.noConfusion h
        · rename_i s1 ssz st1 hdec
          obtain ⟨lo, hi2, hsw, he1, he2, he3⟩ :=
            decompose_singleton_shape d0 w c s1 ssz st1 hdec
          have hklen : k < domain.length := lt_length_of_get?_some domain k d0 hd
          have hdg : domain.getD k 0 = d0 := getD_of_get?_some domain k d0 hd
          have hcg : coords.getD k 0 = c := getD_of_get?_some coords k c hcq
          have hsl' : (subs.set k (ssz.getD 0 0)).length = domain.length := by
            simpa using hsl
          have hstl' : (starts.set k (st1.getD 0 0)).length = domain.length := by
            simpa using hstl
          obtain ⟨hl1, hl2, hout, haxis⟩ := ih coords domain (k + 1)
            (subs.set k (ssz.getD 0 0)) (starts.set k (st1.getD 0 0)) fsubs fstarts
            hsl' hstl' h
          have hsubk : (subs.set k (ssz.getD 0 0)).getD k 0 = ssz.getD 0 0 :=
            getD_set_self subs k _ (by omega)
          have hstk : (starts.set k (st1.getD 0 0)).getD k 0 = st1.getD 0 0 :=
            getD_set_self starts k _ (by omega)
          refine ⟨hl1, hl2, ?_, ?_⟩
          · intro j hj
            have hlen : (w :: rest).length = rest.length + 1 := by simp
            have hj' : j < k + 1 ∨ (k + 1) + rest.length ≤ j := by
              rcases hj with hj | hj
              · exact Or.inl (by omega)
              · rw [hlen] at hj
                right
                omega
            have hjne : j ≠ k := by
              rcases hj with hj | hj
              · omega
              · rw [hlen] at hj; omega
            obtain ⟨ho1, ho2⟩ := hout j hj'
            rw [ho1, ho2, getD_set_ne subs k j _ hjne, getD_set_ne starts k j _ hjne]
            exact ⟨rfl, rfl⟩
          · intro i hi
            cases i with
            | zero =>
              have hfs : fsubs.getD k 0 = ssz.getD 0 0 := by
                have hk := (hout k (Or.inl (by omega))).1
                rw [hk, hsubk]
              have hfst : fstarts.getD k 0 = st1.getD 0 0 := by
                have hk := (hout k (Or.inl (by omega))).2
                rw [hk, hstk]
              simp only [Nat.add_zero, List.getD_cons_zero]
              rw [hdg, hcg, hfs, hfst, he2, he3]
              simp only [List.getD_cons_zero]
              rw [he1, he2, he3] at hdec
              exact hdec
            | succ m =>
              have hax := haxis m (by simpa using hi)
              have harith : k + 1 + m = k + (m + 1) := by omega
              rw [harith] at hax
              simpa using hax

/-- C5: `Cartesian.decompose` splits each grid axis `d < len(dims)`
independently through the parent (Partitioner-based) `decompose` with
`workers = dims[d]` and `id = coords[d]`, and leaves every axis at or
beyond the grid rank unchanged; concretely, a 2×2 grid over the domain
`[8, 8]` gives the four workers disjoint 4×4 bricks with starts
`(0,0)`, `(0,4)`, `(4,0)`, `(4,4)` covering each of the 64 cells
exactly once. -/
theorem cartesian_decompose_per_axis :
    (∀ dims coords domain s ss st : List ℤ,
        Cartesian.decompose dims coords domain = .ok (s, ss, st) →
        s = domain ∧ ss.length = domain.length ∧ st.length = domain.length ∧
        (∀ d : ℕ, d < dims.length →
          Decomposition.decompose [domain.getD d 0] (dims.getD d 0) (coords.getD d 0) =
            .ok ([domain.getD d 0], [ss.getD d 0], [st.getD d 0])) ∧
        (∀ k : ℕ, dims.length ≤ k →
          ss.getD k 0 = domain.getD k 0 ∧ st.getD k 0 = 0)) ∧
    ((∀ c : Fin 2 × Fin 2, Cartesian.decompose [2, 2] [(c.1 : ℤ), (c.2 : ℤ)] [8, 8] =
        .ok ([8, 8], [4, 4], [4 * (c.1 : ℤ), 4 * (c.2 : ℤ)])) ∧
     (∀ x : Fin 8 × Fin 8, ∃ c : Fin 2 × Fin 2,
        ((cart22 c).2.2.getD 0 0 ≤ (x.1 : ℤ) ∧
         (x.1 : ℤ) < (cart22 c).2.2.getD 0 0 + (cart22 c).2.1.getD 0 0 ∧
         (cart22 c).2.2.getD 1 0 ≤ (x.2 : ℤ) ∧
         (x.2 : ℤ) < (cart22 c).2.2.getD 1 0 + (cart22 c).2.1.getD 1 0) ∧
        ∀ c2 : Fin 2 × Fin 2,
          ((cart22 c2).2.2.getD 0 0 ≤ (x.1 : ℤ) ∧
           (x.1 : ℤ) < (cart22 c2).2.2.getD 0 0 + (cart22 c2).2.1.getD 0 0 ∧
           (cart22 c2).2.2.getD 1 0 ≤ (x.2 : ℤ) ∧
           (x.2 : ℤ) < (cart22 c2).2.2.getD 1 0 + (cart22 c2).2.1.getD 1 0) → c2 = c)) := by
  refine ⟨?_, by decide, by decide⟩
  intro dims coords domain s ss st h
  rw [Cartesian.decompose] at h
  split at h
  · exact Except.noConfusion h
  · rename_i subs starts heq
    simp only [Except.ok.injEq, Prod.mk.injEq] at h
    obtain ⟨h1, h2, h3⟩ := h
    obtain ⟨hl1, hl2, hout, haxis⟩ := cart_go_spec dims coords domain 0 domain
      (List.replicate domain.length 0) subs starts rfl (by simp) heq
    subst h1; subst h2; subst h3
    refine ⟨rfl, hl1, hl2, ?_, ?_⟩
    · intro d hd
      have hax := haxis d hd
      simpa using hax
    · intro k hk
      obtain ⟨ho1, ho2⟩ := hout k (Or.inr (by omega))
      rw [ho1, ho2]
      exact ⟨rfl, getD_replicate_zero domain.length k⟩

/-- C5 (witness): the general statement applied to the 2×2 grid worker
with coordinates `(0, 1)` on the domain `[8, 8]`. -/
theorem cartesian_decompose_per_axis_witness :
    ([8, 8] : List ℤ) = [8, 8] ∧ ([4, 4] : List ℤ).length = ([8, 8] : List ℤ).length ∧
    ([0, 4] : List ℤ).length = ([8, 8] : List ℤ).length ∧
    (∀ d : ℕ, d < ([2, 2] : List ℤ).length →
      Decomposition.decompose [([8, 8] : List ℤ).getD d 0] (([2, 2] : List ℤ).getD d 0)
          (([0, 1] : List ℤ).getD d 0) =
        .ok ([([8, 8] : List ℤ).getD d 0], [([4, 4] : List ℤ).getD d 0],
             [([0, 4] : List ℤ).getD d 0])) ∧
    (∀ k : ℕ, ([2, 2] : List ℤ).length ≤ k →
      ([4, 4] : List ℤ).getD k 0 = ([8, 8] : List ℤ).getD k 0 ∧
      ([0, 4] : List ℤ).getD k 0 = 0) :=
  cartesian_decompose_per_axis.1 [2, 2] [0, 1] [8, 8] [8, 8] [4, 4] [0, 4] (by decide)

/-! ### Claim C6 -/

/-- C6 (counterexample): the claim fails as stated.  On a fresh channel
(no handler open), with a valid numpy dtype and a decomposable domain,
`load` with order `"F"` first opens the file — a file-system access —
and then raises `ValueError` (the source line is
`raise ValueError("Currently noy supporting FORTRAN ordering")`), not a
not-implemented condition. -/
theorem load_fortran_order_valueerror_after_open :
    MpiIo.load false 2 0 [4] true ['F'] = ([MpiEvent.fileOpen], .error .valueError) ∧
    PyErr.valueError ≠ PyErr.notImplementedError ∧
    ([MpiEvent.fileOpen] : List MpiEvent) ≠ [] :=
  ⟨by decide, by decide, by decide⟩

/-- C6 (amended): for every order whose uppercase form is not `"C"`,
`MpiIO.load` fails with `ValueError` (an invalid-argument condition, not
not-implemented), provided execution reaches the order check (numpy dtype
and successful decomposition); before failing it has already opened the
file read-only whenever no handler was open. -/
theorem load_bad_order_raises_valueerror
    (handlerOpen : Bool) (commSize commRank : ℤ) (domain : List ℤ) (order : List Char)
    (hdec : ∃ trip, Decomposition.decompose domain commSize commRank = .ok trip)
    (hord : MpiIo.pyUpper order ≠ ['C']) :
    MpiIo.load handlerOpen commSize commRank domain true order =
      ((if handlerOpen then [] else [MpiEvent.fileOpen]), .error .valueError) := by
  obtain ⟨⟨s, ss, st⟩, htrip⟩ := hdec
  rw [MpiIo.load]
  have hopt : Decomposition.decompose_opt commSize commRank domain none none =
      Decomposition.decompose domain commSize commRank := rfl
  rw [hopt, htrip]
  simp [hord]

/-- C6 (witness): the amended theorem at the counterexample's input. -/
theorem load_bad_order_witness :
    MpiIo.load false 2 0 [4] true ['F'] =
      ((if false then [] else [MpiEvent.fileOpen]), .error .valueError) :=
  load_bad_order_raises_valueerror false 2 0 [4] ['F']
    ⟨([4], [2], [0]), by decide⟩ (by decide)

/-! ### Claim C7 -/

/-- C7: `MpiIO.save` fails with `NotImplementedError` for every array and
header, and performs no effect whatsoever (its body is a single `raise`
statement, so the target file is neither created nor modified). -/
theorem save_always_not_implemented :
    ∀ (array : List ℤ) (header : List Char),
      MpiIo.save array header = ([], .error .notImplementedError) :=
  fun _ _ => rfl

/-! ### Claim C8 -/

/-- C8: the `switcher` dictionary is keyed only by the nine individual
mode constants, so the combination `MPI.MODE_CREATE | MPI.MODE_WRONLY`
(value 5) — precisely the mode the repository's own parallel numpy save
path passes to `file_open` (numpy.py line 66) — is rejected with
`ValueError` before any open is attempted, although the claim says every
combination of listed modes passes validation.  A single listed mode
such as `MODE_RDONLY` does pass. -/
theorem check_file_mode_rejects_create_or_wronly :
    MpiIo.MODE_CREATE ||| MpiIo.MODE_WRONLY = 5 ∧
    MpiIo.check_file_mode (MpiIo.MODE_CREATE ||| MpiIo.MODE_WRONLY) = .error .valueError ∧
    MpiIo.file_open (MpiIo.MODE_CREATE ||| MpiIo.MODE_WRONLY) = ([], .error .valueError) ∧
    MpiIo.check_file_mode MpiIo.MODE_RDONLY = .ok MpiIo.MODE_RDONLY :=
  ⟨by decide, by decide, by decide, by decide⟩

/-! ### Claim C9 -/

/-- C9: the base share `part = int(load / workers)` is NOT exact floor
division at all magnitudes.  At `load = 2 ^ 53 + 3`, `workers = 1`,
float division rounds the quotient to `2 ^ 53 + 4` (ties to even), so
`part` exceeds the true floor quotient `2 ^ 53 + 3` and
`rem = load - part * workers` is `-1` instead of the true remainder 0. -/
theorem part_differs_from_floor_div_at_2pow53plus3 :
    Decomposition.part (2 ^ 53 + 3 : ℤ) 1 = 2 ^ 53 + 4 ∧
    (2 ^ 53 + 3 : ℤ) / 1 = 2 ^ 53 + 3 ∧
    Decomposition.rem (2 ^ 53 + 3 : ℤ) 1 = -1 :=
  ⟨by decide, by decide, by decide⟩

/-! ### Claim C10 -/

/-- C10: the `workers`/`id` pair is defaulted atomically: if either of
them is omitted (`None`), BOTH are replaced by the communicator's size
and the caller's rank, so supplying only one of the two has no effect on
the result; supplying both uses them unchanged. -/
theorem decompose_defaults_workers_id_atomically :
    ∀ (commSize commRank : ℤ) (domain : List ℤ) (w i : ℤ),
      Decomposition.decompose_opt commSize commRank domain (some w) none =
        Decomposition.decompose_opt commSize commRank domain none none ∧
      Decomposition.decompose_opt commSize commRank domain none (some i) =
        Decomposition.decompose_opt commSize commRank domain none none ∧
      Decomposition.decompose_opt commSize commRank domain none none =
        Decomposition.decompose domain commSize commRank ∧
      Decomposition.decompose_opt commSize commRank domain (some w) (some i) =
        Decomposition.decompose domain w i :=
  fun _ _ _ _ _ => ⟨rfl, rfl, rfl, rfl⟩
